import Mathlib

/-!
Verification development for the ball-simulation logic module (logic.py).

The Python floats are idealised as real numbers; the seeded random source is
modelled as a stream of unit draws in [0, 1) together with a cursor, each
call to uniform(a, b) or random() consuming one draw.  Python percent on
floats is modelled by pymod, Python int() truncation by pytrunc, and
math.atan2 by the argument of the corresponding complex number (both agree on
exact real inputs, including atan2 0 0 = 0).
-/

open Real

/-- Python float modulo x percent m, that is x - m * floor (x / m); for m > 0 the
result lies in [0, m). -/
noncomputable def pymod (x m : ℝ) : ℝ := x - m * ⌊x / m⌋

/-- Python int() conversion of a float: truncation toward zero. -/
noncomputable def pytrunc (x : ℝ) : ℤ := if 0 ≤ x then ⌊x⌋ else -⌊-x⌋

/-- Python random.uniform a b with unit draw u, that is a + (b - a) * u. -/
def pyUniform (a b u : ℝ) : ℝ := a + (b - a) * u

/-- math.radians: degrees to radians. -/
noncomputable def radians (d : ℝ) : ℝ := d * (π / 180)

/-- math.atan2 y x, modelled as the argument of the complex number x + y i
(range (-pi, pi], and atan2 0 0 = 0, as in Python). -/
noncomputable def atan2 (y x : ℝ) : ℝ := Complex.arg (x + y * Complex.I)

/-- 2D vector from logic.py (Vector2). -/
structure Vector2 where
  x : ℝ
  y : ℝ

namespace Vector2

/-- Vector2.add. -/
def add (v w : Vector2) : Vector2 := ⟨v.x + w.x, v.y + w.y⟩

/-- Vector2.sub. -/
def sub (v w : Vector2) : Vector2 := ⟨v.x - w.x, v.y - w.y⟩

/-- Vector2.mul by a scalar. -/
def mul (v : Vector2) (s : ℝ) : Vector2 := ⟨v.x * s, v.y * s⟩

/-- Vector2.length, math.hypot x y. -/
noncomputable def length (v : Vector2) : ℝ := Real.sqrt (v.x * v.x + v.y * v.y)

/-- Vector2.normalized: the zero vector when the length is zero. -/
noncomputable def normalized (v : Vector2) : Vector2 :=
  if v.length = 0 then ⟨0, 0⟩ else ⟨v.x / v.length, v.y / v.length⟩

end Vector2

/-- RGB color from logic.py (Color), components idealised as reals. -/
structure Color where
  r : ℝ
  g : ℝ
  b : ℝ

/-- colorsys.rgb_to_hsv. -/
noncomputable def rgb_to_hsv (r g b : ℝ) : ℝ × ℝ × ℝ :=
  let maxc := max r (max g b)
  let minc := min r (min g b)
  let rangec := maxc - minc
  let v := maxc
  if minc = maxc then (0, 0, v)
  else
    let s := rangec / maxc
    let rc := (maxc - r) / rangec
    let gc := (maxc - g) / rangec
    let bc := (maxc - b) / rangec
    let h := if r = maxc then bc - gc else if g = maxc then 2 + rc - bc else 4 + gc - rc
    (pymod (h / 6) 1, s, v)

/-- colorsys.hsv_to_rgb. -/
noncomputable def hsv_to_rgb (h s v : ℝ) : ℝ × ℝ × ℝ :=
  if s = 0 then (v, v, v)
  else
    let i0 := pytrunc (h * 6)
    let f := h * 6 - (i0 : ℝ)
    let p := v * (1 - s)
    let q := v * (1 - s * f)
    let t := v * (1 - s * (1 - f))
    let i := i0 % 6
    if i = 0 then (v, t, p)
    else if i = 1 then (q, v, p)
    else if i = 2 then (p, v, t)
    else if i = 3 then (p, q, v)
    else if i = 4 then (t, p, v)
    else (v, p, q)

namespace Color

/-- Color.clamp: force components into [0, 1]. -/
def clamp (c : Color) : Color :=
  ⟨min 1 (max 0 c.r), min 1 (max 0 c.g), min 1 (max 0 c.b)⟩

/-- Color.to_hsv via colorsys. -/
noncomputable def to_hsv (c : Color) : ℝ × ℝ × ℝ := rgb_to_hsv c.r c.g c.b

/-- Color.from_hsv via colorsys. -/
noncomputable def from_hsv (h s v : ℝ) : Color :=
  let rgb := hsv_to_rgb h s v
  ⟨rgb.1, rgb.2.1, rgb.2.2⟩

end Color

/-- The module-level helper circular mean of hues weighted by the given
weights (logic.py, underscore-prefixed circular mean helper). -/
noncomputable def circular_mean_hue (hues weights : List ℝ) : ℝ :=
  if hues.isEmpty then 0
  else
    let tw := max 1e-9 weights.sum
    let angles := hues.map (fun h => h * (2 * π))
    let x := ((angles.zip weights).map (fun p => Real.cos p.1 * p.2)).sum / tw
    let y := ((angles.zip weights).map (fun p => Real.sin p.1 * p.2)).sum / tw
    let angle := atan2 y x
    let angle2 := if angle < 0 then angle + 2 * π else angle
    angle2 / (2 * π)

/-- mix_colors from logic.py: circular-mean hue weighted by chroma, screen-style
saturation with a 1.05 boost, geometric-mean value, then clamp. -/
noncomputable def mix_colors (c1 c2 : Color) : Color :=
  let hsv1 := c1.to_hsv
  let hsv2 := c2.to_hsv
  let chroma1 := hsv1.2.1 * hsv1.2.2
  let chroma2 := hsv2.2.1 * hsv2.2.2
  let h := circular_mean_hue [hsv1.1, hsv2.1] [chroma1 + 1e-6, chroma2 + 1e-6]
  let s0 := 1 - (1 - hsv1.2.1) * (1 - hsv2.2.1)
  let s := min 1 (max 0 (s0 * 1.05))
  let v := Real.sqrt (max 0 hsv1.2.2 * max 0 hsv2.2.2)
  (Color.from_hsv h s v).clamp

/-- Ball entity from logic.py. -/
structure Ball where
  ball_id : ℤ
  position : Vector2
  velocity : Vector2
  radius : ℝ
  color : Color

/-- Axis-aligned rectangle from logic.py (deletion zone). -/
structure Rect where
  x : ℝ
  y : ℝ
  width : ℝ
  height : ℝ

/-- Rect.contains: inclusive on all four edges. -/
def Rect.contains (z : Rect) (p : Vector2) : Prop :=
  z.x ≤ p.x ∧ p.x ≤ z.x + z.width ∧ z.y ≤ p.y ∧ p.y ≤ z.y + z.height

noncomputable instance (z : Rect) (p : Vector2) : Decidable (z.contains p) := by
  unfold Rect.contains; infer_instance

/-- World state of the GameLogic class.  The Python dict from ball id to Ball
is modelled as a list of balls in insertion order with unique ids; the seeded
random.Random instance is modelled as a stream of unit draws plus a cursor. -/
structure GameLogic where
  width : ℝ
  height : ℝ
  balls : List Ball
  next_id : ℤ
  inventory_capacity : Option ℤ
  inventory : List Ball
  deletion_zone : Option Rect
  rng : ℕ → ℝ
  rng_idx : ℕ

/-- Python dict assignment d[k] = v on the id-keyed ball map: replace the
entry in place when the key is present, otherwise append. -/
def dictInsert (l : List Ball) (b : Ball) : List Ball :=
  if l.any (fun x => x.ball_id = b.ball_id) then
    l.map (fun x => if x.ball_id = b.ball_id then b else x)
  else l ++ [b]

namespace GameLogic

/-- GameLogic constructor: stores the dimensions unvalidated, fills the ball
map from initial_balls, tracks the next id, and starts with an empty
inventory and no deletion zone. -/
def mk_logic (width height : ℝ) (initial_balls : List Ball)
    (inventory_capacity : Option ℤ) (rng : ℕ → ℝ) : GameLogic :=
  { width := width
    height := height
    balls := initial_balls.foldl dictInsert []
    next_id := initial_balls.foldl (fun n b => max n (b.ball_id + 1)) 1
    inventory_capacity := inventory_capacity
    inventory := []
    deletion_zone := none
    rng := rng
    rng_idx := 0 }

/-- GameLogic.create_ball: allocate the next id, insert into the live map,
return the new ball.  No validation of the radius. -/
def create_ball (s : GameLogic) (position velocity : Vector2) (radius : ℝ)
    (color : Color) : Ball × GameLogic :=
  let ball : Ball := ⟨s.next_id, position, velocity, radius, color⟩
  (ball, { s with next_id := s.next_id + 1, balls := dictInsert s.balls ball })

/-- GameLogic.remove_ball: delete the id from the live map when present. -/
def remove_ball (s : GameLogic) (ball_id : ℤ) : GameLogic :=
  { s with balls := s.balls.filter (fun b => b.ball_id ≠ ball_id) }

/-- GameLogic.set_deletion_zone. -/
def set_deletion_zone (s : GameLogic) (z : Option Rect) : GameLogic :=
  { s with deletion_zone := z }

/-- Heuristic cell size estimate (logic.py estimate helper): 64 with no balls,
otherwise the average radius times 2.5 clamped into [16, 128]. -/
noncomputable def estimate_cell_size (s : GameLogic) : ℝ :=
  if s.balls.isEmpty then 64
  else max 16 (min 128 ((s.balls.map Ball.radius).sum / (s.balls.length : ℝ) * 2.5))

/-- The cell size actually used by the color-mixing pass:
max(32.0, estimate_cell_size()). -/
noncomputable def mixing_cell_size (s : GameLogic) : ℝ :=
  max 32 (s.estimate_cell_size)

/-- Grid bucket key of a ball: int(x // cell), int(y // cell). -/
noncomputable def cellKey (cell : ℝ) (b : Ball) : ℤ × ℤ :=
  (⌊b.position.x / cell⌋, ⌊b.position.y / cell⌋)

/-- Python dict.setdefault(key, []).append(b) on the grid: extend the bucket
in place when the key is present, otherwise append a new singleton bucket. -/
def gridAdd (g : List ((ℤ × ℤ) × List Ball)) (key : ℤ × ℤ) (b : Ball) :
    List ((ℤ × ℤ) × List Ball) :=
  if g.any (fun e => e.1 = key) then
    g.map (fun e => if e.1 = key then (e.1, e.2 ++ [b]) else e)
  else g ++ [(key, [b])]

/-- Bucket lookup in the grid. -/
def gridLookup (g : List ((ℤ × ℤ) × List Ball)) (key : ℤ × ℤ) :
    Option (List Ball) :=
  (g.find? (fun e => e.1 = key)).map (fun e => e.2)

/-- The 3x3 neighborhood offsets in the iteration order of the source
(ny outer over -1, 0, 1; nx inner over -1, 0, 1; key is (cx + nx, cy + ny)). -/
def neighborOffsets : List (ℤ × ℤ) :=
  [(-1, -1), (0, -1), (1, -1), (-1, 0), (0, 0), (1, 0), (-1, 1), (0, 1), (1, 1)]

/-- The ordered id pairs fed to the pairwise mixing check: for every cell, for
every ball a of its bucket, every ball b of the 3x3 neighborhood with
a.ball_id < b.ball_id. -/
def mixPairs (g : List ((ℤ × ℤ) × List Ball)) : List (ℤ × ℤ) :=
  g.flatMap (fun e =>
    let neighbors := neighborOffsets.flatMap
      (fun o => (gridLookup g (e.1.1 + o.1, e.1.2 + o.2)).getD [])
    e.2.flatMap (fun a => neighbors.filterMap
      (fun b => if a.ball_id < b.ball_id then some (a.ball_id, b.ball_id) else none)))

/-- The pairwise overlap-and-mix step (logic.py maybe-mix helper), by id lookup
in the current state: when the squared center distance is at most the squared
radius sum, both balls receive the single mixed color. -/
noncomputable def maybeMix (s : GameLogic) (p : ℤ × ℤ) : GameLogic :=
  match s.balls.find? (fun b => b.ball_id = p.1),
        s.balls.find? (fun b => b.ball_id = p.2) with
  | some a, some b =>
    let dx := b.position.x - a.position.x
    let dy := b.position.y - a.position.y
    let dist2 := dx * dx + dy * dy
    let rr := a.radius + b.radius
    if dist2 ≤ rr * rr then
      let mixed := mix_colors a.color b.color
      { s with balls := s.balls.map (fun c =>
          if c.ball_id = p.1 ∨ c.ball_id = p.2 then { c with color := mixed } else c) }
    else s
  | _, _ => s

/-- The color-mixing pass (logic.py apply-color-mixing): build the uniform
grid with the derived cell size, then fold the pairwise mix over all candidate
pairs in source order. -/
noncomputable def apply_color_mixing (s : GameLogic) : GameLogic :=
  let cell := s.mixing_cell_size
  let grid := s.balls.foldl (fun g b => gridAdd g (cellKey cell b) b) []
  (mixPairs grid).foldl maybeMix s

/-- One integration step of a single ball: position += velocity * dt, then
toroidal wrap of both coordinates by the Python modulo. -/
noncomputable def integrate (w h dt : ℝ) (b : Ball) : Ball :=
  let p := b.position.add (b.velocity.mul dt)
  { b with position := ⟨pymod p.x w, pymod p.y h⟩ }

/-- GameLogic.update: no-op for dt <= 0; otherwise integrate with wrap, cull
the deletion zone, and run the color-mixing pass. -/
noncomputable def update (s : GameLogic) (dt : ℝ) : GameLogic :=
  if dt ≤ 0 then s
  else
    let s1 : GameLogic := { s with balls := s.balls.map (integrate s.width s.height dt) }
    let s2 : GameLogic :=
      match s1.deletion_zone with
      | none => s1
      | some z => { s1 with balls := s1.balls.filter (fun b => !decide (z.contains b.position)) }
    apply_color_mixing s2

end GameLogic

namespace GameLogic

/-- The max_count break test of the suck loop:
max_count is not None and len(sucked) >= max_count. -/
def maxCountReached (max_count : Option ℤ) (suckedLen : ℕ) : Bool :=
  match max_count with
  | none => false
  | some mc => (suckedLen : ℤ) ≥ mc

/-- The capacity break test of the suck loop:
inventory_capacity is not None and len(inventory) >= inventory_capacity. -/
def capacityReached (s : GameLogic) : Bool :=
  match s.inventory_capacity with
  | none => false
  | some cap => (s.inventory.length : ℤ) ≥ cap

/-- The capture loop of GameLogic.suck_into_inventory over the sorted
candidates: break on max_count or capacity, else move the ball from the live
map into the inventory and record it in sucked. -/
def suckLoop (max_count : Option ℤ) :
    List Ball → GameLogic → List Ball → GameLogic × List Ball
  | [], s, sucked => (s, sucked)
  | b :: rest, s, sucked =>
    if maxCountReached max_count sucked.length then (s, sucked)
    else if capacityReached s then (s, sucked)
    else
      suckLoop max_count rest
        { s with balls := s.balls.filter (fun x => x.ball_id ≠ b.ball_id)
                 inventory := s.inventory ++ [b] }
        (sucked ++ [b])

/-- GameLogic.suck_into_inventory: collect the live balls whose center lies
within radius of point (squared-distance test), pair each with its distance
math.hypot dx dy, sort ascending by distance (stable, as in Python), then run
the capture loop.  Returns the new state and the sucked list. -/
noncomputable def suck_into_inventory (s : GameLogic) (point : Vector2)
    (radius : ℝ) (max_count : Option ℤ) : GameLogic × List Ball :=
  let r2 := radius * radius
  let candidates := (s.balls.filter (fun b =>
      (b.position.x - point.x) * (b.position.x - point.x) +
        (b.position.y - point.y) * (b.position.y - point.y) ≤ r2)).map
    (fun b => (Real.sqrt ((b.position.x - point.x) * (b.position.x - point.x) +
        (b.position.y - point.y) * (b.position.y - point.y)), b))
  let sorted := (List.insertionSort (fun p q => p.1 ≤ q.1) candidates).map Prod.snd
  suckLoop max_count sorted s []

/-- The per-ball emission angle of GameLogic.spit_from_inventory given the
normalized direction option and the unit draw u: uniform over [0, 2 pi) when
no direction was passed, else atan2 of the normalized direction plus a uniform
offset in [-spread/2, spread/2]. -/
noncomputable def spitAngle (direction_norm : Option Vector2)
    (spread_degrees u : ℝ) : ℝ :=
  match direction_norm with
  | none => pyUniform 0 (2 * π) u
  | some d =>
    let base_angle := atan2 d.y d.x
    let spread := radians spread_degrees
    base_angle + pyUniform (-spread * 0.5) (spread * 0.5) u

/-- The emission angle as a function of the raw direction argument of
GameLogic.spit_from_inventory (None is kept as None, otherwise the direction
is normalized before the loop). -/
noncomputable def spitAngleOf (direction : Option Vector2)
    (spread_degrees u : ℝ) : ℝ :=
  spitAngle (direction.map Vector2.normalized) spread_degrees u

/-- One iteration of the emission loop of GameLogic.spit_from_inventory on the
ball popped from the end of the inventory: relocate it to point, give it a
fresh velocity from the emission angle and a speed in [0.85, 1.15) of
base_speed (two unit draws), and reinsert it into the live map under its
original id. -/
noncomputable def spitStep (point : Vector2) (direction_norm : Option Vector2)
    (base_speed spread_degrees : ℝ) (s : GameLogic) (ball : Ball) :
    GameLogic × Ball :=
  let angle := spitAngle direction_norm spread_degrees (s.rng s.rng_idx)
  let speed := base_speed * (0.85 + 0.30 * s.rng (s.rng_idx + 1))
  let ball2 : Ball := { ball with
    position := ⟨point.x, point.y⟩
    velocity := ⟨Real.cos angle * speed, Real.sin angle * speed⟩ }
  ({ s with inventory := s.inventory.dropLast
            balls := dictInsert s.balls ball2
            rng_idx := s.rng_idx + 2 }, ball2)

/-- The emission loop of GameLogic.spit_from_inventory: pop the last inventory
ball and run one emission step on it, repeating up to the requested count. -/
noncomputable def spitLoop (point : Vector2) (direction_norm : Option Vector2)
    (base_speed spread_degrees : ℝ) :
    ℕ → GameLogic → List Ball → GameLogic × List Ball
  | 0, s, emitted => (s, emitted)
  | n + 1, s, emitted =>
    match s.inventory.getLast? with
    | none => (s, emitted)
    | some ball =>
      let r := spitStep point direction_norm base_speed spread_degrees s ball
      spitLoop point direction_norm base_speed spread_degrees n r.1 (emitted ++ [r.2])

/-- GameLogic.spit_from_inventory: normalize the direction once, then emit
min(count, len(inventory)) balls LIFO from the end of the inventory. -/
noncomputable def spit_from_inventory (s : GameLogic) (point : Vector2)
    (direction : Option Vector2) (count : ℤ) (base_speed spread_degrees : ℝ) :
    GameLogic × List Ball :=
  let direction_norm := direction.map Vector2.normalized
  spitLoop point direction_norm base_speed spread_degrees
    (min count (s.inventory.length : ℤ)).toNat s []

end GameLogic

/-- One suck request (the arguments of a suck_into_inventory call). -/
structure SuckCall where
  point : Vector2
  radius : ℝ
  max_count : Option ℤ

/-- Fold a sequence of suck calls over the state, dropping the returned
lists. -/
noncomputable def applySucks (calls : List SuckCall) (s : GameLogic) : GameLogic :=
  calls.foldl (fun st c => (st.suck_into_inventory c.point c.radius c.max_count).1) s

/-- An inventory operation: one suck_into_inventory or one spit_from_inventory
call with its arguments. -/
inductive InvOp where
  | suckOp (point : Vector2) (radius : ℝ) (max_count : Option ℤ) : InvOp
  | spitOp (point : Vector2) (direction : Option Vector2) (count : ℤ)
      (base_speed spread_degrees : ℝ) : InvOp

/-- Fold a sequence of inventory operations over the state. -/
noncomputable def applyInvOps (ops : List InvOp) (s : GameLogic) : GameLogic :=
  ops.foldl (fun st op =>
    match op with
    | InvOp.suckOp p r mc => (st.suck_into_inventory p r mc).1
    | InvOp.spitOp p d c bs sd => (st.spit_from_inventory p d c bs sd).1) s

/-- The combined id list of the live map followed by the inventory. -/
def idsOf (s : GameLogic) : List ℤ :=
  s.balls.map Ball.ball_id ++ s.inventory.map Ball.ball_id

/-- A sample ball used by concrete instances. -/
def ballA : Ball := ⟨1, ⟨5, 5⟩, ⟨1, 0⟩, 10, ⟨1, 0, 0⟩⟩

/-- A second sample ball used by concrete instances. -/
def ballB : Ball := ⟨2, ⟨7, 7⟩, ⟨0, 0⟩, 9, ⟨0, 1, 0⟩⟩

/-- Concrete world with one live ball and one inventory ball. -/
def Wbase : GameLogic :=
  { width := 100
    height := 100
    balls := [ballA]
    next_id := 3
    inventory_capacity := none
    inventory := [ballB]
    deletion_zone := none
    rng := fun _ => 0
    rng_idx := 0 }

/-- Concrete world with a configured inventory capacity of 2. -/
def Wcap : GameLogic :=
  { Wbase with inventory_capacity := some 2 }

/-- Concrete world whose single ball sits at (99, 0) with velocity (50, 0). -/
def W1 : GameLogic :=
  { width := 100
    height := 100
    balls := [⟨1, ⟨99, 0⟩, ⟨50, 0⟩, 10, ⟨1, 0, 0⟩⟩]
    next_id := 2
    inventory_capacity := none
    inventory := []
    deletion_zone := none
    rng := fun _ => 0
    rng_idx := 0 }

/-- Concrete world holding a ball whose position is already out of bounds. -/
def C1w : GameLogic :=
  { W1 with balls := [⟨1, ⟨-5, 0⟩, ⟨0, 0⟩, 10, ⟨1, 0, 0⟩⟩] }

/-- Concrete world with a single ball of radius 4. -/
def C2w : GameLogic :=
  { W1 with balls := [⟨1, ⟨10, 10⟩, ⟨0, 0⟩, 4, ⟨1, 0, 0⟩⟩] }

/-- The wrap into [0, m) performed by the Python modulo for positive m. -/
theorem pymod_mem (x : ℝ) {m : ℝ} (hm : 0 < m) : 0 ≤ pymod x m ∧ pymod x m < m := by
  have hne : m ≠ 0 := ne_of_gt hm
  have hfr : pymod x m = m * Int.fract (x / m) := by
    unfold pymod Int.fract
    field_simp
  constructor
  · rw [hfr]
    exact mul_nonneg (le_of_lt hm) (Int.fract_nonneg _)
  · rw [hfr]
    calc m * Int.fract (x / m) < m * 1 := by
          exact mul_lt_mul_of_pos_left (Int.fract_lt_one _) hm
      _ = m := mul_one m

/-- Claim C2 (counterexample): with one live ball of radius 4 the mixing pass
uses cell size 32, while clamp(average_radius * 2.5, 16, 128) is 16. -/
theorem c2_counterexample :
    GameLogic.mixing_cell_size C2w = 32 ∧
    max 16 (min 128 ((C2w.balls.map Ball.radius).sum / (C2w.balls.length : ℝ) * 2.5)) = 16 := by
  constructor
  · norm_num [GameLogic.mixing_cell_size, GameLogic.estimate_cell_size, C2w, W1]
  · norm_num [C2w, W1]

/-- Claim C2 (amended): the cell size of the mixing pass is 64 with no live
balls, and otherwise clamp(average_radius * 2.5, 32, 128), that is the claimed
estimate with its lower bound raised from 16 to 32 by the outer
max(32.0, ...) of the mixing pass. -/
theorem c2_cell_size (s : GameLogic) :
    (s.balls = [] → GameLogic.mixing_cell_size s = 64) ∧
    (s.balls ≠ [] → GameLogic.mixing_cell_size s =
      max 32 (min 128 ((s.balls.map Ball.radius).sum / (s.balls.length : ℝ) * 2.5))) := by
  constructor
  · intro h
    norm_num [GameLogic.mixing_cell_size, GameLogic.estimate_cell_size, h]
  · intro h
    have hne : s.balls.isEmpty = false := by
      simpa [List.isEmpty_iff] using h
    rw [GameLogic.mixing_cell_size, GameLogic.estimate_cell_size, hne]
    simp only [Bool.false_eq_true, if_false]
    rw [← max_assoc]
    norm_num

/-- Claim C2 (witness for the amended theorem at the radius-4 world). -/
theorem c2_cell_size_witness :
    C2w.balls ≠ [] ∧ GameLogic.mixing_cell_size C2w =
      max 32 (min 128 ((C2w.balls.map Ball.radius).sum / (C2w.balls.length : ℝ) * 2.5)) :=
  ⟨by simp [C2w, W1], (c2_cell_size C2w).2 (by simp [C2w, W1])⟩

/-- Claim C5 (code behavior at the failing input): constructing the world with
width -5 and height 0 succeeds silently, and create_ball accepts the
non-positive radius -1, inserting the ball into the live map; no error is
reported anywhere. -/
theorem c5_construction_unvalidated :
    (GameLogic.mk_logic (-5) 0 [] none (fun _ => 0)).width = -5 ∧
    (GameLogic.mk_logic (-5) 0 [] none (fun _ => 0)).height = 0 ∧
    ((GameLogic.mk_logic (-5) 0 [] none (fun _ => 0)).create_ball ⟨1, 1⟩ ⟨0, 0⟩ (-1)
        ⟨0, 0, 0⟩).1.radius = -1 ∧
    ((GameLogic.mk_logic (-5) 0 [] none (fun _ => 0)).create_ball ⟨1, 1⟩ ⟨0, 0⟩ (-1)
        ⟨0, 0, 0⟩).2.balls = [⟨1, ⟨1, 1⟩, ⟨0, 0⟩, -1, ⟨0, 0, 0⟩⟩] :=
  ⟨rfl, rfl, rfl, rfl⟩

/-- Claim C10: a spit call with non-positive count emits nothing and returns
the state unchanged in every component, the random source included. -/
theorem c10_spit_nonpositive_count (s : GameLogic) (point : Vector2)
    (direction : Option Vector2) (count : ℤ) (bs sd : ℝ) (hc : count ≤ 0) :
    s.spit_from_inventory point direction count bs sd = (s, []) := by
  unfold GameLogic.spit_from_inventory
  have h0 : (min count (s.inventory.length : ℤ)).toNat = 0 :=
    Int.toNat_of_nonpos (le_trans (min_le_left _ _) hc)
  rw [h0]
  rfl

/-- Claim C10 (witness): spitting with count -1 from a world with a nonempty
inventory changes nothing and emits nothing. -/
theorem c10_spit_nonpositive_count_witness :
    (-1 : ℤ) ≤ 0 ∧ Wbase.spit_from_inventory ⟨0, 0⟩ none (-1) 200 20 = (Wbase, []) :=
  ⟨by decide, c10_spit_nonpositive_count Wbase ⟨0, 0⟩ none (-1) 200 20 (by decide)⟩

/-- Claim C3 (counterexample): with the zero vector passed as direction
(negligible combined magnitude) and unit draw 1/2, the emission angle is 0,
not the uniform draw 2 pi u = pi: the zero vector is normalized to the zero
vector, which is not None, so the code orients around atan2 0 0 = 0 with the
default 20 degree spread instead of drawing uniformly from [0, 2 pi). -/
theorem c3_counterexample :
    GameLogic.spitAngleOf (some ⟨0, 0⟩) 20 (1 / 2) ≠ 2 * π * (1 / 2) := by
  have hlen : (Vector2.length ⟨0, 0⟩) = 0 := by
    simp [Vector2.length]
  have hnorm : (Vector2.normalized ⟨0, 0⟩) = (⟨0, 0⟩ : Vector2) := by
    rw [Vector2.normalized, if_pos hlen]
  have hatan : atan2 (Vector2.y ⟨0, 0⟩) (Vector2.x ⟨0, 0⟩) = 0 := by
    show Complex.arg _ = 0
    norm_num
  have hval : GameLogic.spitAngleOf (some ⟨0, 0⟩) 20 (1 / 2) = 0 := by
    rw [GameLogic.spitAngleOf]
    simp only [Option.map_some']
    rw [hnorm, GameLogic.spitAngle]
    rw [hatan]
    simp only [pyUniform, radians]
    ring
  rw [hval]
  intro h
  have hpi : π ≠ 0 := Real.pi_ne_zero
  apply hpi
  linarith

/-- Claim C3 (amended): only when the direction argument is absent (None) is
the emission angle the uniform draw over [0, 2 pi): it equals 2 pi u for the
unit draw u and therefore ranges over [0, 2 pi).  A present direction of
negligible magnitude instead normalizes to the zero vector and is oriented
around the fixed base angle atan2 0 0 = 0 with the configured spread. -/
theorem c3_uniform_when_absent (sd u : ℝ) (h0 : 0 ≤ u) (h1 : u < 1) :
    GameLogic.spitAngleOf none sd u = 2 * π * u ∧
    0 ≤ GameLogic.spitAngleOf none sd u ∧
    GameLogic.spitAngleOf none sd u < 2 * π := by
  have he : GameLogic.spitAngleOf none sd u = 2 * π * u := by
    rw [GameLogic.spitAngleOf]
    simp only [Option.map_none']
    rw [GameLogic.spitAngle]
    simp only [pyUniform]
    ring
  refine ⟨he, ?_, ?_⟩
  · rw [he]
    have := Real.pi_pos
    positivity
  · rw [he]
    have h2 : 2 * π * u < 2 * π * 1 := by
      apply mul_lt_mul_of_pos_left h1
      have := Real.pi_pos
      linarith
    simpa using h2

/-- Claim C3 (witness for the amended theorem at u = 1/2). -/
theorem c3_uniform_when_absent_witness :
    (0 : ℝ) ≤ 1 / 2 ∧ (1 / 2 : ℝ) < 1 ∧
    (GameLogic.spitAngleOf none 20 (1 / 2) = 2 * π * (1 / 2) ∧
      0 ≤ GameLogic.spitAngleOf none 20 (1 / 2) ∧
      GameLogic.spitAngleOf none 20 (1 / 2) < 2 * π) :=
  ⟨by norm_num, by norm_num, c3_uniform_when_absent 20 (1 / 2) (by norm_num) (by norm_num)⟩

/-- Swapping both the hue list and the weight list leaves the two-entry
circular mean unchanged. -/
theorem circular_mean_hue_swap (a b w1 w2 : ℝ) :
    circular_mean_hue [a, b] [w1, w2] = circular_mean_hue [b, a] [w2, w1] := by
  rw [circular_mean_hue, circular_mean_hue]
  simp only [List.isEmpty_cons, List.map_cons, List.map_nil, List.zip_cons_cons,
    List.zip_nil_left, List.sum_cons, List.sum_nil]
  rw [show w1 + (w2 + 0) = w2 + (w1 + 0) from by ring]
  rw [show Real.cos (a * (2 * π)) * w1 + (Real.cos (b * (2 * π)) * w2 + 0) =
        Real.cos (b * (2 * π)) * w2 + (Real.cos (a * (2 * π)) * w1 + 0) from by ring]
  rw [show Real.sin (a * (2 * π)) * w1 + (Real.sin (b * (2 * π)) * w2 + 0) =
        Real.sin (b * (2 * π)) * w2 + (Real.sin (a * (2 * π)) * w1 + 0) from by ring]

/-- Claim C9: mixing is symmetric, mix(c1, c2) = mix(c2, c1), for all colors
(in particular those with components in [0, 1]).  Every ingredient of
mix_colors is symmetric in its two inputs: the weighted circular hue mean,
the screen-style saturation combine, and the geometric-mean value. -/
theorem c9_mix_symmetric (c1 c2 : Color) :
    mix_colors c1 c2 = mix_colors c2 c1 := by
  simp only [mix_colors]
  rw [circular_mean_hue_swap]
  ring_nf


/-- The pairwise mix step changes only colors: dimensions and each ball's id
and position are untouched. -/
theorem maybeMix_preserves (s : GameLogic) (p : ℤ × ℤ) :
    (GameLogic.maybeMix s p).width = s.width ∧
    (GameLogic.maybeMix s p).height = s.height ∧
    (GameLogic.maybeMix s p).balls.map (fun b => (b.ball_id, b.position)) =
      s.balls.map (fun b => (b.ball_id, b.position)) := by
  unfold GameLogic.maybeMix
  cases h1 : s.balls.find? (fun b => b.ball_id = p.1) with
  | none => exact ⟨rfl, rfl, rfl⟩
  | some a =>
    cases h2 : s.balls.find? (fun b => b.ball_id = p.2) with
    | none => exact ⟨rfl, rfl, rfl⟩
    | some b =>
      dsimp only
      by_cases hd : (b.position.x - a.position.x) * (b.position.x - a.position.x) +
          (b.position.y - a.position.y) * (b.position.y - a.position.y) ≤
          (a.radius + b.radius) * (a.radius + b.radius)
      · rw [if_pos hd]
        refine ⟨rfl, rfl, ?_⟩
        rw [List.map_map]
        apply List.map_congr_left
        intro c _
        by_cases hc : c.ball_id = p.1 ∨ c.ball_id = p.2
        · simp only [Function.comp_apply, if_pos hc]
        · simp only [Function.comp_apply, if_neg hc]
      · rw [if_neg hd]
        exact ⟨rfl, rfl, rfl⟩

/-- Folding the pairwise mix step over any pair list changes only colors. -/
theorem foldl_maybeMix_preserves (pairs : List (ℤ × ℤ)) (s : GameLogic) :
    (pairs.foldl GameLogic.maybeMix s).width = s.width ∧
    (pairs.foldl GameLogic.maybeMix s).height = s.height ∧
    (pairs.foldl GameLogic.maybeMix s).balls.map (fun b => (b.ball_id, b.position)) =
      s.balls.map (fun b => (b.ball_id, b.position)) := by
  induction pairs generalizing s with
  | nil => exact ⟨rfl, rfl, rfl⟩
  | cons p ps ih =>
    simp only [List.foldl_cons]
    obtain ⟨hw, hh, hm⟩ := ih (GameLogic.maybeMix s p)
    obtain ⟨hw2, hh2, hm2⟩ := maybeMix_preserves s p
    exact ⟨hw.trans hw2, hh.trans hh2, hm.trans hm2⟩

/-- The whole color-mixing pass changes only colors: dimensions and each
ball's id and position are untouched. -/
theorem apply_color_mixing_preserves (s : GameLogic) :
    (GameLogic.apply_color_mixing s).width = s.width ∧
    (GameLogic.apply_color_mixing s).height = s.height ∧
    (GameLogic.apply_color_mixing s).balls.map (fun b => (b.ball_id, b.position)) =
      s.balls.map (fun b => (b.ball_id, b.position)) := by
  unfold GameLogic.apply_color_mixing
  exact foldl_maybeMix_preserves _ s

/-- Claim C1 (amended): for every positive dt and positive world dimensions,
after update(dt) every live ball's position lies in [0, width) x [0, height):
the integration step wraps both coordinates with the Python modulo, the
deletion-zone cull only removes balls, and the mixing pass moves nothing.
For dt = 0 (allowed by the claim as stated) update returns without touching
any ball, so a position that was out of range stays out of range. -/
theorem c1_wrap_invariant (s : GameLogic) (dt : ℝ) (hdt : 0 < dt)
    (hw : 0 < s.width) (hh : 0 < s.height) :
    ∀ b ∈ (GameLogic.update s dt).balls,
      0 ≤ b.position.x ∧ b.position.x < s.width ∧
      0 ≤ b.position.y ∧ b.position.y < s.height := by
  intro b hb
  rw [GameLogic.update, if_neg (not_le.mpr hdt)] at hb
  have hmain : ∀ s2 : GameLogic,
      (∀ bb ∈ s2.balls, (∃ u, bb.position.x = pymod u s.width) ∧
        (∃ u, bb.position.y = pymod u s.height)) →
      b ∈ (GameLogic.apply_color_mixing s2).balls →
      0 ≤ b.position.x ∧ b.position.x < s.width ∧
      0 ≤ b.position.y ∧ b.position.y < s.height := by
    intro s2 hs2 hbmem
    have hpres := (apply_color_mixing_preserves s2).2.2
    have hmem2 : (b.ball_id, b.position) ∈
        s2.balls.map (fun bb => (bb.ball_id, bb.position)) := by
      rw [← hpres]
      exact List.mem_map_of_mem _ hbmem
    obtain ⟨b2, hb2, hkey⟩ := List.mem_map.mp hmem2
    have hpos : b2.position = b.position := congrArg Prod.snd hkey
    obtain ⟨⟨ux, hux⟩, ⟨uy, huy⟩⟩ := hs2 b2 hb2
    rw [← hpos, hux, huy]
    obtain ⟨hx1, hx2⟩ := pymod_mem ux hw
    obtain ⟨hy1, hy2⟩ := pymod_mem uy hh
    exact ⟨hx1, hx2, hy1, hy2⟩
  cases hz : s.deletion_zone with
  | none =>
    simp only [hz] at hb
    refine hmain _ ?_ hb
    intro bb hbb
    obtain ⟨b0, _, rfl⟩ := List.mem_map.mp hbb
    exact ⟨⟨_, rfl⟩, ⟨_, rfl⟩⟩
  | some z =>
    simp only [hz] at hb
    refine hmain _ ?_ hb
    intro bb hbb
    obtain ⟨b0, _, rfl⟩ := List.mem_map.mp (List.mem_of_mem_filter hbb)
    exact ⟨⟨_, rfl⟩, ⟨_, rfl⟩⟩

/-- Claim C1 (counterexample to the claim as stated): dt = 0 satisfies
dt >= 0, but update(0) is a no-op, so the ball sitting at x = -5 still
violates 0 <= position.x < width afterwards. -/
theorem c1_counterexample :
    (0 : ℝ) ≤ 0 ∧ ∃ b ∈ (GameLogic.update C1w 0).balls,
      ¬ (0 ≤ b.position.x ∧ b.position.x < C1w.width ∧
         0 ≤ b.position.y ∧ b.position.y < C1w.height) := by
  refine ⟨le_refl 0, ?_⟩
  have h : GameLogic.update C1w 0 = C1w := by
    rw [GameLogic.update, if_pos (le_refl (0 : ℝ))]
  rw [h]
  refine ⟨⟨1, ⟨-5, 0⟩, ⟨0, 0⟩, 10, ⟨1, 0, 0⟩⟩, ?_, ?_⟩
  · simp [C1w, W1]
  · intro hcl
    have h1 := hcl.1
    norm_num at h1

/-- Claim C1 (witness for the amended theorem): the 100 x 100 world with one
ball, advanced by dt = 1. -/
theorem c1_wrap_invariant_witness :
    (0 : ℝ) < 1 ∧ (0 : ℝ) < W1.width ∧ (0 : ℝ) < W1.height ∧
    ∀ b ∈ (GameLogic.update W1 1).balls,
      0 ≤ b.position.x ∧ b.position.x < W1.width ∧
      0 ≤ b.position.y ∧ b.position.y < W1.height :=
  ⟨by norm_num, by norm_num [W1], by norm_num [W1],
    c1_wrap_invariant W1 1 (by norm_num) (by norm_num [W1]) (by norm_num [W1])⟩


/-- Python float modulo by one is the fractional part. -/
theorem pymod_one (x : ℝ) : pymod x 1 = Int.fract x := by
  unfold pymod Int.fract
  rw [div_one]
  ring

/-- The hue produced by rgb_to_hsv always lies in [0, 1). -/
theorem hue_mem (r g b : ℝ) : 0 ≤ (rgb_to_hsv r g b).1 ∧ (rgb_to_hsv r g b).1 < 1 := by
  rw [rgb_to_hsv]
  by_cases hmm : min r (min g b) = max r (max g b)
  · rw [if_pos hmm]
    norm_num
  · rw [if_neg hmm]
    dsimp only
    rw [pymod_one]
    exact ⟨Int.fract_nonneg _, Int.fract_lt_one _⟩

/-- The saturation produced by rgb_to_hsv is nonnegative for nonnegative
inputs. -/
theorem sat_nonneg (r g b : ℝ) (hr : 0 ≤ r) : 0 ≤ (rgb_to_hsv r g b).2.1 := by
  rw [rgb_to_hsv]
  by_cases hmm : min r (min g b) = max r (max g b)
  · rw [if_pos hmm]
  · rw [if_neg hmm]
    dsimp only
    have hmax : 0 ≤ max r (max g b) := le_trans hr (le_max_left _ _)
    have hminle : min r (min g b) ≤ max r (max g b) :=
      le_trans (min_le_left _ _) (le_max_left _ _)
    exact div_nonneg (by linarith) hmax

/-- The value produced by rgb_to_hsv is nonnegative for nonnegative inputs. -/
theorem val_nonneg (r g b : ℝ) (hr : 0 ≤ r) : 0 ≤ (rgb_to_hsv r g b).2.2 := by
  rw [rgb_to_hsv]
  by_cases hmm : min r (min g b) = max r (max g b)
  · rw [if_pos hmm]
    exact le_trans hr (le_max_left _ _)
  · rw [if_neg hmm]
    exact le_trans hr (le_max_left _ _)

/-- On the unit circle, atan2 recovers an angle of [0, 2 pi) up to the 2 pi
wrap of the (-pi, pi] range. -/
theorem atan2_cos_sin (A : ℝ) (h0 : 0 ≤ A) (h2 : A < 2 * π) :
    atan2 (Real.sin A) (Real.cos A) = if A ≤ π then A else A - 2 * π := by
  have hpi := Real.pi_pos
  unfold atan2
  by_cases hle : A ≤ π
  · rw [if_pos hle]
    rw [Complex.ofReal_cos, Complex.ofReal_sin]
    exact Complex.arg_cos_add_sin_mul_I ⟨by linarith, hle⟩
  · rw [if_neg hle]
    push_neg at hle
    have hc : Real.cos A = Real.cos (A - 2 * π) := (Real.cos_sub_two_pi A).symm
    have hs : Real.sin A = Real.sin (A - 2 * π) := (Real.sin_sub_two_pi A).symm
    rw [hc, hs, Complex.ofReal_cos, Complex.ofReal_sin]
    exact Complex.arg_cos_add_sin_mul_I ⟨by linarith, by linarith⟩

/-- The chroma-weighted circular mean of two equal hues of [0, 1) with equal
positive weights is that hue again. -/
theorem circular_mean_hue_pair_eq (h w : ℝ) (h0 : 0 ≤ h) (h1 : h < 1) (hw : 0 < w)
    (hw9 : (1e-9 : ℝ) ≤ w + (w + 0)) :
    circular_mean_hue [h, h] [w, w] = h := by
  have hpi := Real.pi_pos
  rw [circular_mean_hue]
  simp only [List.isEmpty_cons, List.map_cons, List.map_nil, List.zip_cons_cons,
    List.zip_nil_left, List.sum_cons, List.sum_nil, Bool.false_eq_true, if_false]
  rw [max_eq_right hw9]
  have hwne : w + (w + 0) ≠ 0 := by positivity
  have hX : (Real.cos (h * (2 * π)) * w + (Real.cos (h * (2 * π)) * w + 0)) / (w + (w + 0)) =
      Real.cos (h * (2 * π)) := by
    field_simp
    ring
  have hY : (Real.sin (h * (2 * π)) * w + (Real.sin (h * (2 * π)) * w + 0)) / (w + (w + 0)) =
      Real.sin (h * (2 * π)) := by
    field_simp
    ring
  rw [hX, hY]
  have hA0 : 0 ≤ h * (2 * π) := by positivity
  have hA2 : h * (2 * π) < 2 * π := by nlinarith
  rw [atan2_cos_sin _ hA0 hA2]
  by_cases hle : h * (2 * π) ≤ π
  · rw [if_pos hle, if_neg (by linarith : ¬ h * (2 * π) < 0)]
    field_simp
  · rw [if_neg hle]
    push_neg at hle
    rw [if_pos (by linarith : h * (2 * π) - 2 * π < 0)]
    field_simp

/-- Claim C4 (amended): mixing a color with itself preserves its hue and its
value exactly, but boosts the saturation to min(1, 1.05 * (1 - (1 - s)^2));
the original color is returned only when this boost is the identity on its
saturation (for instance s = 0 or s = 1), not in general. -/
theorem c4_mix_self_formula (c : Color) (hr : 0 ≤ c.r) (hg : 0 ≤ c.g) (hb : 0 ≤ c.b) :
    mix_colors c c = (Color.from_hsv c.to_hsv.1
      (min 1 (max 0 ((1 - (1 - c.to_hsv.2.1) * (1 - c.to_hsv.2.1)) * 1.05)))
      c.to_hsv.2.2).clamp := by
  simp only [mix_colors]
  have hs0 : 0 ≤ c.to_hsv.2.1 := sat_nonneg c.r c.g c.b hr
  have hv0 : 0 ≤ c.to_hsv.2.2 := val_nonneg c.r c.g c.b hr
  have hw : 0 < c.to_hsv.2.1 * c.to_hsv.2.2 + 1e-6 := by positivity
  have hw9 : (1e-9 : ℝ) ≤ (c.to_hsv.2.1 * c.to_hsv.2.2 + 1e-6) +
      ((c.to_hsv.2.1 * c.to_hsv.2.2 + 1e-6) + 0) := by
    have h9 : 0 ≤ c.to_hsv.2.1 * c.to_hsv.2.2 := mul_nonneg hs0 hv0
    norm_num
    linarith
  obtain ⟨hh0, hh1⟩ := hue_mem c.r c.g c.b
  rw [circular_mean_hue_pair_eq c.to_hsv.1 (c.to_hsv.2.1 * c.to_hsv.2.2 + 1e-6) hh0 hh1 hw hw9]
  rw [Real.sqrt_mul_self (le_max_left 0 _), max_eq_right hv0]

/-- Claim C4 (witness for the amended theorem at the color (1, 1/2, 1/2)). -/
theorem c4_mix_self_formula_witness :
    (0 : ℝ) ≤ 1 ∧ (0 : ℝ) ≤ 1 / 2 ∧
    mix_colors ⟨1, 1 / 2, 1 / 2⟩ ⟨1, 1 / 2, 1 / 2⟩ =
      (Color.from_hsv (Color.to_hsv ⟨1, 1 / 2, 1 / 2⟩).1
        (min 1 (max 0 ((1 - (1 - (Color.to_hsv ⟨1, 1 / 2, 1 / 2⟩).2.1) *
          (1 - (Color.to_hsv ⟨1, 1 / 2, 1 / 2⟩).2.1)) * 1.05)))
        (Color.to_hsv ⟨1, 1 / 2, 1 / 2⟩).2.2).clamp :=
  ⟨by norm_num, by norm_num,
    c4_mix_self_formula ⟨1, 1 / 2, 1 / 2⟩ (by norm_num) (by norm_num) (by norm_num)⟩

/-- The HSV decomposition of the half-saturated red (1, 1/2, 1/2). -/
theorem to_hsv_half_red : Color.to_hsv ⟨1, 1 / 2, 1 / 2⟩ = (0, 1 / 2, 1) := by
  rw [Color.to_hsv, rgb_to_hsv]
  norm_num [min_def, max_def, pymod]

/-- Claim C4 (counterexample): mixing the half-saturated red (1, 1/2, 1/2)
with itself yields (1, 0.2125, 0.2125), whose green and blue components are
0.2875 away from the original, more than a quarter of the whole [0, 1]
range: not approximately the same color. -/
theorem c4_counterexample :
    mix_colors ⟨1, 1 / 2, 1 / 2⟩ ⟨1, 1 / 2, 1 / 2⟩ = ⟨1, 17 / 80, 17 / 80⟩ ∧
    (1 / 2 : ℝ) - 17 / 80 > 1 / 4 := by
  constructor
  · simp only [mix_colors, to_hsv_half_red]
    norm_num
    rw [circular_mean_hue_pair_eq 0 (500001 / 1000000) (by norm_num) (by norm_num)
      (by norm_num) (by norm_num)]
    norm_num [Color.from_hsv, hsv_to_rgb, pytrunc, Color.clamp, min_def, max_def]
  · norm_num

/-- The capture loop never grows the inventory beyond a configured capacity it
already respects, and never touches the capacity field. -/
theorem suckLoop_capacity (mc : Option ℤ) (cands : List Ball) (s : GameLogic)
    (acc : List Ball) (cap : ℤ) (hcap : s.inventory_capacity = some cap)
    (hinv : (s.inventory.length : ℤ) ≤ cap) :
    (GameLogic.suckLoop mc cands s acc).1.inventory_capacity = some cap ∧
    ((GameLogic.suckLoop mc cands s acc).1.inventory.length : ℤ) ≤ cap := by
  induction cands generalizing s acc with
  | nil => exact ⟨hcap, hinv⟩
  | cons b rest ih =>
    rw [GameLogic.suckLoop]
    by_cases h1 : GameLogic.maxCountReached mc acc.length = true
    · rw [if_pos h1]
      exact ⟨hcap, hinv⟩
    · rw [if_neg h1]
      by_cases h2 : GameLogic.capacityReached s = true
      · rw [if_pos h2]
        exact ⟨hcap, hinv⟩
      · rw [if_neg h2]
        have h3 : ¬ ((s.inventory.length : ℤ) ≥ cap) := by
          intro hge
          apply h2
          rw [GameLogic.capacityReached, hcap]
          exact decide_eq_true hge
        apply ih
        · exact hcap
        · rw [List.length_append, List.length_singleton]
          push_cast
          push_cast at h3
          linarith [not_le.mp h3]

/-- A single suck call preserves the configured capacity and the capacity
bound on the inventory. -/
theorem suck_capacity (s : GameLogic) (pt : Vector2) (r : ℝ) (mc : Option ℤ)
    (cap : ℤ) (hcap : s.inventory_capacity = some cap)
    (hinv : (s.inventory.length : ℤ) ≤ cap) :
    (s.suck_into_inventory pt r mc).1.inventory_capacity = some cap ∧
    ((s.suck_into_inventory pt r mc).1.inventory.length : ℤ) ≤ cap := by
  unfold GameLogic.suck_into_inventory
  exact suckLoop_capacity mc _ s [] cap hcap hinv

/-- Claim C6: with a capacity configured and an initial inventory within it,
no sequence of suck calls ever pushes the inventory size beyond the capacity:
each capture is guarded by the capacity break of the loop. -/
theorem c6_capacity_bound (calls : List SuckCall) (s : GameLogic) (cap : ℤ)
    (hcap : s.inventory_capacity = some cap)
    (hinv : (s.inventory.length : ℤ) ≤ cap) :
    ((applySucks calls s).inventory.length : ℤ) ≤ cap := by
  induction calls generalizing s with
  | nil => simpa [applySucks] using hinv
  | cons c rest ih =>
    simp only [applySucks, List.foldl_cons]
    obtain ⟨hc2, hi2⟩ := suck_capacity s c.point c.radius c.max_count cap hcap hinv
    exact ih _ hc2 hi2

/-- The emission loop pops exactly the last n inventory balls, emitting them
in reverse (last-in-first-out) order and leaving the length - n prefix. -/
theorem spitLoop_lifo (pt : Vector2) (dn : Option Vector2) (bs sd : ℝ) (n : ℕ)
    (s : GameLogic) (emitted : List Ball) (hn : n ≤ s.inventory.length) :
    (GameLogic.spitLoop pt dn bs sd n s emitted).2.map Ball.ball_id =
      emitted.map Ball.ball_id ++ (s.inventory.map Ball.ball_id).reverse.take n ∧
    (GameLogic.spitLoop pt dn bs sd n s emitted).1.inventory =
      s.inventory.take (s.inventory.length - n) := by
  induction n generalizing s emitted with
  | zero =>
    rw [GameLogic.spitLoop]
    constructor
    · simp
    · simp [List.take_length]
  | succ n ih =>
    rcases List.eq_nil_or_concat s.inventory with hnil | ⟨l2, a, hconc⟩
    · rw [hnil] at hn
      simp at hn
    · rw [List.concat_eq_append] at hconc
      have hlast : s.inventory.getLast? = some a := by
        rw [hconc]
        exact List.getLast?_concat _
      have hdrop : (GameLogic.spitStep pt dn bs sd s a).1.inventory = l2 := by
        show s.inventory.dropLast = l2
        rw [hconc]
        exact List.dropLast_concat
      have hlen : s.inventory.length = l2.length + 1 := by
        rw [hconc]
        simp
      rw [GameLogic.spitLoop, hlast]
      dsimp only
      have hn2 : n ≤ (GameLogic.spitStep pt dn bs sd s a).1.inventory.length := by
        rw [hdrop]
        rw [hlen] at hn
        omega
      obtain ⟨hemit, hinv⟩ := ih (GameLogic.spitStep pt dn bs sd s a).1
        (emitted ++ [(GameLogic.spitStep pt dn bs sd s a).2]) hn2
      constructor
      · rw [hemit, hdrop]
        have hid : (GameLogic.spitStep pt dn bs sd s a).2.ball_id = a.ball_id := rfl
        rw [hconc]
        simp only [List.map_append, List.map_cons, List.map_nil, List.reverse_append,
          List.reverse_cons, List.reverse_nil, List.nil_append, List.cons_append,
          List.take_succ_cons, List.append_assoc, hid]
      · rw [hinv, hdrop]
        rw [hconc]
        simp only [List.length_append, List.length_singleton]
        have hle : l2.length + 1 - (n + 1) ≤ l2.length := by omega
        rw [List.take_append_of_le_length hle]
        congr 1
        omega

/-- Claim C8: spit removes exactly min(count, inventory.size) balls from the
end of the inventory and emits them in reverse capture order (LIFO): the
emitted id sequence is the reversed inventory id suffix, and the inventory
keeps its prefix.  In particular, after sucking A, B, C in that capture order
(appended in order to the inventory), a spit releases C first. -/
theorem c8_spit_lifo (s : GameLogic) (pt : Vector2) (dir : Option Vector2)
    (count : ℤ) (bs sd : ℝ) :
    (s.spit_from_inventory pt dir count bs sd).2.map Ball.ball_id =
      (s.inventory.map Ball.ball_id).reverse.take
        (min count (s.inventory.length : ℤ)).toNat ∧
    (s.spit_from_inventory pt dir count bs sd).1.inventory =
      s.inventory.take (s.inventory.length -
        (min count (s.inventory.length : ℤ)).toNat) := by
  unfold GameLogic.spit_from_inventory
  have hk : (min count (s.inventory.length : ℤ)).toNat ≤ s.inventory.length :=
    Int.toNat_le.mpr (min_le_right _ _)
  have h := spitLoop_lifo pt (dir.map Vector2.normalized) bs sd _ s [] hk
  simpa using h

/-- Claim C6 (witness): one unbounded suck call on the capacity-2 world with
one ball already held. -/
theorem c6_capacity_bound_witness :
    Wcap.inventory_capacity = some 2 ∧ ((Wcap.inventory.length : ℤ) ≤ 2) ∧
    ((applySucks [⟨⟨5, 5⟩, 100, none⟩] Wcap).inventory.length : ℤ) ≤ 2 :=
  ⟨rfl, by simp [Wcap, Wbase],
    c6_capacity_bound [⟨⟨5, 5⟩, 100, none⟩] Wcap 2 rfl (by simp [Wcap, Wbase])⟩

/-- Removing a ball id commutes with taking the id list. -/
theorem ids_filter_ne (l : List Ball) (i : ℤ) :
    (l.filter (fun x => x.ball_id ≠ i)).map Ball.ball_id =
      (l.map Ball.ball_id).filter (fun j => j ≠ i) := by
  induction l with
  | nil => rfl
  | cons a t ih =>
    by_cases h : a.ball_id = i
    · simpa [List.filter_cons, h] using ih
    · simpa [List.filter_cons, h] using ih

/-- Removing one present element of a duplicate-free list shortens it by
exactly one. -/
theorem filter_ne_length {l : List ℤ} {i : ℤ} (hnd : l.Nodup) (hm : i ∈ l) :
    (l.filter (fun j => j ≠ i)).length + 1 = l.length := by
  induction l with
  | nil => cases hm
  | cons a t ih =>
    rcases List.mem_cons.mp hm with heq | hm2
    · subst heq
      have hnotin : i ∉ t := (List.nodup_cons.mp hnd).1
      have hfeq : t.filter (fun j => j ≠ i) = t :=
        List.filter_eq_self.mpr (fun x hx => decide_eq_true (fun he => hnotin (he ▸ hx)))
      simp [List.filter_cons, hfeq]
      intro x hx heq2
      exact hnotin (heq2 ▸ hx)
    · have hne : a ≠ i := by
        rintro rfl
        exact (List.nodup_cons.mp hnd).1 hm2
      have ht := ih (List.nodup_cons.mp hnd).2 hm2
      simp only [List.filter_cons, List.length_cons]
      rw [if_pos (decide_eq_true hne)]
      simp only [List.length_cons]
      omega

/-- Dict assignment under a fresh key appends the entry. -/
theorem dictInsert_not_mem (l : List Ball) (b : Ball)
    (h : b.ball_id ∉ l.map Ball.ball_id) : dictInsert l b = l ++ [b] := by
  rw [dictInsert, if_neg]
  intro hany
  obtain ⟨x, hx, heq⟩ := List.any_eq_true.mp hany
  exact h (of_decide_eq_true heq ▸ List.mem_map_of_mem Ball.ball_id hx)

/-- The capture loop preserves the combined ball count and the uniqueness of
ids across the live map and the inventory: every capture removes exactly one
live entry and appends exactly one inventory entry. -/
theorem suckLoop_conserves (mc : Option ℤ) (cands : List Ball) (s : GameLogic)
    (acc : List Ball) (hwf : (idsOf s).Nodup)
    (hsub : ∀ c ∈ cands, c.ball_id ∈ s.balls.map Ball.ball_id)
    (hcnd : (cands.map Ball.ball_id).Nodup) :
    ((GameLogic.suckLoop mc cands s acc).1.balls.length +
      (GameLogic.suckLoop mc cands s acc).1.inventory.length =
      s.balls.length + s.inventory.length) ∧
    (idsOf (GameLogic.suckLoop mc cands s acc).1).Nodup := by
  induction cands generalizing s acc with
  | nil => exact ⟨rfl, hwf⟩
  | cons b rest ih =>
    rw [GameLogic.suckLoop]
    by_cases h1 : GameLogic.maxCountReached mc acc.length = true
    · rw [if_pos h1]
      exact ⟨rfl, hwf⟩
    · rw [if_neg h1]
      by_cases h2 : GameLogic.capacityReached s = true
      · rw [if_pos h2]
        exact ⟨rfl, hwf⟩
      · rw [if_neg h2]
        have hmemB : b.ball_id ∈ s.balls.map Ball.ball_id := hsub b (List.mem_cons_self b rest)
        obtain ⟨hndB, hndI, hdisj⟩ := List.nodup_append.mp hwf
        have hnotinI : b.ball_id ∉ s.inventory.map Ball.ball_id := hdisj hmemB
        have hlen : (s.balls.filter (fun x => x.ball_id ≠ b.ball_id)).length + 1 =
            s.balls.length := by
          have h3 := filter_ne_length hndB hmemB
          calc (s.balls.filter (fun x => x.ball_id ≠ b.ball_id)).length + 1
              = ((s.balls.filter (fun x => x.ball_id ≠ b.ball_id)).map Ball.ball_id).length
                  + 1 := by rw [List.length_map]
            _ = ((s.balls.map Ball.ball_id).filter (fun j => j ≠ b.ball_id)).length + 1 := by
                  rw [ids_filter_ne]
            _ = (s.balls.map Ball.ball_id).length := h3
            _ = s.balls.length := List.length_map _ _
        have hwf2 : (idsOf { s with
            balls := s.balls.filter (fun x => x.ball_id ≠ b.ball_id),
            inventory := s.inventory ++ [b] }).Nodup := by
          show ((s.balls.filter (fun x => x.ball_id ≠ b.ball_id)).map Ball.ball_id ++
              (s.inventory ++ [b]).map Ball.ball_id).Nodup
          rw [ids_filter_ne, List.map_append]
          rw [List.nodup_append]
          refine ⟨hndB.filter _, ?_, ?_⟩
          · rw [List.nodup_append]
            refine ⟨hndI, List.nodup_singleton _, ?_⟩
            intro x hxI
            simp only [List.map_cons, List.map_nil, List.mem_singleton]
            intro hxb
            exact hnotinI (hxb ▸ hxI)
          · intro x hxB2
            have hx := List.mem_filter.mp hxB2
            have hxB : x ∈ s.balls.map Ball.ball_id := hx.1
            have hxne : x ≠ b.ball_id := of_decide_eq_true hx.2
            rw [List.mem_append]
            rintro (hxI | hxb)
            · exact hdisj hxB hxI
            · simp only [List.map_cons, List.map_nil, List.mem_singleton] at hxb
              exact hxne hxb
        have hcnd0 : (b.ball_id :: rest.map Ball.ball_id).Nodup := by simpa using hcnd
        have hsub2 : ∀ c ∈ rest, c.ball_id ∈
            (s.balls.filter (fun x => x.ball_id ≠ b.ball_id)).map Ball.ball_id := by
          intro c hc
          rw [ids_filter_ne, List.mem_filter]
          refine ⟨hsub c (List.mem_cons_of_mem _ hc), decide_eq_true ?_⟩
          intro he
          exact (List.nodup_cons.mp hcnd0).1 (he ▸ List.mem_map_of_mem Ball.ball_id hc)
        have hcnd2 : (rest.map Ball.ball_id).Nodup := (List.nodup_cons.mp hcnd0).2
        obtain ⟨hsum, hwfr⟩ := ih _ (acc ++ [b]) hwf2 hsub2 hcnd2
        constructor
        · rw [hsum]
          simp only [List.length_append, List.length_singleton]
          omega
        · exact hwfr

/-- Sorting the keyed candidate pairs and dropping the keys permutes the
candidate list. -/
theorem sorted_snd_perm (l : List Ball) (key : Ball → ℝ) :
    ((List.insertionSort (fun p q => p.1 ≤ q.1) (l.map (fun b => (key b, b)))).map
      Prod.snd).Perm l := by
  have h3 : List.map (Prod.snd ∘ fun b => (key b, b)) l = l := by
    induction l with
    | nil => rfl
    | cons x t ih => simpa [Function.comp] using ih
  have h1 := List.perm_insertionSort (fun p q : ℝ × Ball => p.1 ≤ q.1)
    (l.map (fun b => (key b, b)))
  have h2 := h1.map Prod.snd
  rw [List.map_map] at h2
  rw [h3] at h2
  exact h2

/-- One suck call preserves the combined ball count and id uniqueness. -/
theorem suck_conserves (s : GameLogic) (pt : Vector2) (r : ℝ) (mc : Option ℤ)
    (hwf : (idsOf s).Nodup) :
    ((s.suck_into_inventory pt r mc).1.balls.length +
      (s.suck_into_inventory pt r mc).1.inventory.length =
      s.balls.length + s.inventory.length) ∧
    (idsOf (s.suck_into_inventory pt r mc).1).Nodup := by
  unfold GameLogic.suck_into_inventory
  have hndB : (s.balls.map Ball.ball_id).Nodup := (List.nodup_append.mp hwf).1
  have hperm := sorted_snd_perm
    (s.balls.filter (fun b =>
      (b.position.x - pt.x) * (b.position.x - pt.x) +
        (b.position.y - pt.y) * (b.position.y - pt.y) ≤ r * r))
    (fun b => Real.sqrt ((b.position.x - pt.x) * (b.position.x - pt.x) +
      (b.position.y - pt.y) * (b.position.y - pt.y)))
  refine suckLoop_conserves mc _ s [] hwf ?_ ?_
  · intro c hc
    exact List.mem_map_of_mem _ (List.mem_of_mem_filter (hperm.subset hc))
  · have hseq : ((s.balls.filter (fun b =>
        (b.position.x - pt.x) * (b.position.x - pt.x) +
          (b.position.y - pt.y) * (b.position.y - pt.y) ≤ r * r)).map Ball.ball_id).Nodup := by
      have hsl := (@List.filter_sublist Ball
        (fun b => decide ((b.position.x - pt.x) * (b.position.x - pt.x) +
          (b.position.y - pt.y) * (b.position.y - pt.y) ≤ r * r)) s.balls).map Ball.ball_id
      exact hndB.sublist hsl
    exact ((hperm.map Ball.ball_id).nodup_iff).mpr hseq

/-- One emission step preserves the combined ball count and id uniqueness:
the popped inventory ball re-enters the live map under its original, still
fresh id. -/
theorem spitStep_conserves (pt : Vector2) (dn : Option Vector2) (bs sd : ℝ)
    (s : GameLogic) (a : Ball) (l2 : List Ball) (hconc : s.inventory = l2 ++ [a])
    (hwf : (idsOf s).Nodup) :
    ((GameLogic.spitStep pt dn bs sd s a).1.balls.length +
      (GameLogic.spitStep pt dn bs sd s a).1.inventory.length =
      s.balls.length + s.inventory.length) ∧
    (idsOf (GameLogic.spitStep pt dn bs sd s a).1).Nodup := by
  obtain ⟨hndB, hndI, hdisj⟩ := List.nodup_append.mp hwf
  have hmemI : a.ball_id ∈ s.inventory.map Ball.ball_id := by
    rw [hconc]
    simp
  have hnotinB : a.ball_id ∉ s.balls.map Ball.ball_id := fun hB => hdisj hB hmemI
  have hid : (GameLogic.spitStep pt dn bs sd s a).2.ball_id = a.ball_id := rfl
  have hbe : (GameLogic.spitStep pt dn bs sd s a).1.balls =
      s.balls ++ [(GameLogic.spitStep pt dn bs sd s a).2] := by
    show dictInsert s.balls _ = _
    apply dictInsert_not_mem
    exact hnotinB
  have hinv2 : (GameLogic.spitStep pt dn bs sd s a).1.inventory = l2 := by
    show s.inventory.dropLast = l2
    rw [hconc]
    exact List.dropLast_concat
  have hidsI : s.inventory.map Ball.ball_id = l2.map Ball.ball_id ++ [a.ball_id] := by
    rw [hconc]
    simp
  constructor
  · rw [hbe, hinv2, hconc]
    simp only [List.length_append, List.length_singleton]
    omega
  · show ((GameLogic.spitStep pt dn bs sd s a).1.balls.map Ball.ball_id ++
      (GameLogic.spitStep pt dn bs sd s a).1.inventory.map Ball.ball_id).Nodup
    rw [hbe, hinv2]
    have hold : (s.balls.map Ball.ball_id ++
        (l2.map Ball.ball_id ++ [a.ball_id])).Nodup := by
      rw [← hidsI]
      exact hwf
    have hperm : ((s.balls.map Ball.ball_id ++ [a.ball_id]) ++ l2.map Ball.ball_id).Perm
        (s.balls.map Ball.ball_id ++ (l2.map Ball.ball_id ++ [a.ball_id])) := by
      rw [List.append_assoc]
      exact (@List.perm_append_comm ℤ [a.ball_id] (l2.map Ball.ball_id)).append_left _
    have hgoal : ((s.balls ++ [(GameLogic.spitStep pt dn bs sd s a).2]).map Ball.ball_id ++
        l2.map Ball.ball_id).Nodup := by
      simp only [List.map_append, List.map_cons, List.map_nil, hid]
      exact (hperm.nodup_iff).mpr hold
    exact hgoal

/-- The emission loop preserves the combined ball count and id uniqueness. -/
theorem spitLoop_conserves (pt : Vector2) (dn : Option Vector2) (bs sd : ℝ) (n : ℕ)
    (s : GameLogic) (emitted : List Ball) (hwf : (idsOf s).Nodup) :
    ((GameLogic.spitLoop pt dn bs sd n s emitted).1.balls.length +
      (GameLogic.spitLoop pt dn bs sd n s emitted).1.inventory.length =
      s.balls.length + s.inventory.length) ∧
    (idsOf (GameLogic.spitLoop pt dn bs sd n s emitted).1).Nodup := by
  induction n generalizing s emitted with
  | zero => exact ⟨rfl, hwf⟩
  | succ n ih =>
    rcases List.eq_nil_or_concat s.inventory with hnil | ⟨l2, a, hconc⟩
    · rw [GameLogic.spitLoop]
      have hnone : s.inventory.getLast? = none := by
        rw [hnil]
        rfl
      rw [hnone]
      exact ⟨rfl, hwf⟩
    · rw [List.concat_eq_append] at hconc
      have hlast : s.inventory.getLast? = some a := by
        rw [hconc]
        exact List.getLast?_concat _
      rw [GameLogic.spitLoop, hlast]
      dsimp only
      obtain ⟨hstep, hwfstep⟩ := spitStep_conserves pt dn bs sd s a l2 hconc hwf
      obtain ⟨hsum, hwfr⟩ := ih (GameLogic.spitStep pt dn bs sd s a).1
        (emitted ++ [(GameLogic.spitStep pt dn bs sd s a).2]) hwfstep
      exact ⟨hsum.trans hstep, hwfr⟩

/-- One spit call preserves the combined ball count and id uniqueness. -/
theorem spit_conserves (s : GameLogic) (pt : Vector2) (dir : Option Vector2)
    (count : ℤ) (bs sd : ℝ) (hwf : (idsOf s).Nodup) :
    ((s.spit_from_inventory pt dir count bs sd).1.balls.length +
      (s.spit_from_inventory pt dir count bs sd).1.inventory.length =
      s.balls.length + s.inventory.length) ∧
    (idsOf (s.spit_from_inventory pt dir count bs sd).1).Nodup := by
  unfold GameLogic.spit_from_inventory
  exact spitLoop_conserves pt (dir.map Vector2.normalized) bs sd _ s [] hwf

/-- Claim C7: over any sequence of suck and spit calls (no deletion-zone or
creation activity), the sum of the live ball count and the inventory count is
constant, given the world invariant that ball ids are unique across both
containers (true of every reachable world). -/
theorem c7_conservation (ops : List InvOp) (s : GameLogic) (hwf : (idsOf s).Nodup) :
    (applyInvOps ops s).balls.length + (applyInvOps ops s).inventory.length =
      s.balls.length + s.inventory.length := by
  suffices h : ((applyInvOps ops s).balls.length + (applyInvOps ops s).inventory.length =
      s.balls.length + s.inventory.length) ∧ (idsOf (applyInvOps ops s)).Nodup from h.1
  induction ops generalizing s with
  | nil => exact ⟨rfl, hwf⟩
  | cons op rest ih =>
    cases op with
    | suckOp p r mc =>
      have hre : applyInvOps (InvOp.suckOp p r mc :: rest) s =
          applyInvOps rest (s.suck_into_inventory p r mc).1 := rfl
      rw [hre]
      obtain ⟨h1, h2⟩ := suck_conserves s p r mc hwf
      obtain ⟨h3, h4⟩ := ih _ h2
      exact ⟨h3.trans h1, h4⟩
    | spitOp p d c bs sd =>
      have hre : applyInvOps (InvOp.spitOp p d c bs sd :: rest) s =
          applyInvOps rest (s.spit_from_inventory p d c bs sd).1 := rfl
      rw [hre]
      obtain ⟨h1, h2⟩ := spit_conserves s p d c bs sd hwf
      obtain ⟨h3, h4⟩ := ih _ h2
      exact ⟨h3.trans h1, h4⟩

/-- Claim C7 (witness): one spit then one suck on the two-ball world. -/
theorem c7_conservation_witness :
    (idsOf Wbase).Nodup ∧
    ((applyInvOps [InvOp.spitOp ⟨0, 0⟩ none 1 200 20,
        InvOp.suckOp ⟨0, 0⟩ 100 none] Wbase).balls.length +
      (applyInvOps [InvOp.spitOp ⟨0, 0⟩ none 1 200 20,
        InvOp.suckOp ⟨0, 0⟩ 100 none] Wbase).inventory.length =
      Wbase.balls.length + Wbase.inventory.length) :=
  ⟨by simp [idsOf, Wbase, ballA, ballB],
    c7_conservation _ Wbase (by simp [idsOf, Wbase, ballA, ballB])⟩
